/-
Verification of the cromulence Wordle core (guess.py, dictionary.py,
game_response.py) against its natural-language specification.

Shallow embedding conventions:
  * A character is modelled as its Unicode codepoint (a `Nat`); a Python
    string is a `List Nat`.  `str.upper` is modelled on the ASCII range,
    which covers the A-Z/a-z alphabet the program works over.
  * Fallible Python code (list indexing that can raise `IndexError`) is
    modelled with `Option`: `none` is an uncaught exception.
  * Mutable lists threaded through the matching passes
    (`character_matched_list`, the `scores` table) become explicit
    functional state.
-/

import Mathlib

set_option maxRecDepth 10000

/-- The `GameResponse` enum from `game_response.py`. -/
inductive GameResponse where
  | INCORRECT
  | ELSEWHERE
  | CORRECT
  deriving DecidableEq

/-- ASCII-range uppercasing of one codepoint (`str.upper` restricted to the
Latin alphabet the program works over). -/
def upperN (c : Nat) : Nat := if 97 ≤ c ∧ c ≤ 122 then c - 32 else c

/-- A Lean string literal as a list of codepoints (for readable test data). -/
def strToWord (s : String) : List Nat := s.data.map Char.toNat

/-- `Guess` from `guess.py`: the per-position (letter, response) pairs of one
scored guess. -/
structure Guess where
  parts : List (Nat × GameResponse)
  deriving DecidableEq

/-- `Guess.__init__`: uppercases every letter.  (The constructor's
single-character validation always succeeds in this model, where a
character is exactly one codepoint.) -/
def Guess.make (parts : List (Nat × GameResponse)) : Guess :=
  ⟨parts.map (fun p => (upperN p.1, p.2))⟩

/-- Loop of `Guess._match_correct` over the remaining `parts`, carrying the
running index `i` and the claimed-position list.  `word[i]` is fallible;
the write `character_matched_list[i] = True` only happens after `word[i]`
succeeded, and the claimed list always has the word's length, so
`List.set` cannot be out of bounds there. -/
def matchCorrectGo (word : List Nat) :
    List (Nat × GameResponse) → Nat → List Bool → Option (Bool × List Bool)
  | [], _, cml => some (true, cml)
  | (gc, gr) :: rest, i, cml =>
    if gr = GameResponse.CORRECT then
      match word.get? i with
      | none => none
      | some wc =>
        if wc ≠ gc then some (false, cml)
        else matchCorrectGo word rest (i + 1) (cml.set i true)
    else matchCorrectGo word rest (i + 1) cml

/-- `Guess._match_correct`: discards the incoming claimed list and starts
from a fresh all-`False` list of the word's length, exactly as the source
does. -/
def Guess.match_correct (g : Guess) (word : List Nat) (_cml : List Bool) :
    Option (Bool × List Bool) :=
  matchCorrectGo word g.parts 0 (List.replicate word.length false)

/-- Inner scan of `Guess._match_elsewhere` over the word (index `j`):
skips claimed positions and positions holding a different letter, skips a
position whose own feedback entry assigns this same letter a non-CORRECT
response, and claims every remaining position holding the letter (the
source scans the full word without breaking).  `self._parts[j]` is
fallible. -/
def elsewhereScanGo (parts : List (Nat × GameResponse)) (gc : Nat) :
    List Nat → Nat → List Bool → Bool → Option (List Bool × Bool)
  | [], _, cml, found => some (cml, found)
  | ch :: rest, j, cml, found =>
    if cml.getD j false ∨ ch ≠ gc then
      elsewhereScanGo parts gc rest (j + 1) cml found
    else
      match parts.get? j with
      | none => none
      | some (gcj, grj) =>
        if gcj = gc ∧ grj ≠ GameResponse.CORRECT then
          elsewhereScanGo parts gc rest (j + 1) cml found
        else
          elsewhereScanGo parts gc rest (j + 1) (cml.set j true) true

/-- Loop of `Guess._match_elsewhere` over the remaining `parts` (index `i`).
`word[i]` is fallible. -/
def matchElsewhereGo (parts : List (Nat × GameResponse)) (word : List Nat) :
    List (Nat × GameResponse) → Nat → List Bool → Option (Bool × List Bool)
  | [], _, cml => some (true, cml)
  | (gc, gr) :: rest, i, cml =>
    if gr = GameResponse.ELSEWHERE then
      match word.get? i with
      | none => none
      | some wc =>
        if wc = gc then some (false, cml)
        else
          match elsewhereScanGo parts gc word 0 cml false with
          | none => none
          | some (cml2, found) =>
            if found then matchElsewhereGo parts word rest (i + 1) cml2
            else some (false, cml2)
    else matchElsewhereGo parts word rest (i + 1) cml

/-- `Guess._match_elsewhere`. -/
def Guess.match_elsewhere (g : Guess) (word : List Nat) (cml : List Bool) :
    Option (Bool × List Bool) :=
  matchElsewhereGo g.parts word g.parts 0 cml

/-- Inner scan of `Guess._match_incorrect`: does the word contain an
occurrence of `gc` at an unclaimed position?  (The source returns `False`
as soon as it finds one; computing the boolean first is equivalent.) -/
def unclaimedOccur (gc : Nat) : List Nat → Nat → List Bool → Bool
  | [], _, _ => false
  | ch :: rest, j, cml =>
    if ch = gc ∧ ¬(cml.getD j false) then true
    else unclaimedOccur gc rest (j + 1) cml

/-- Loop of `Guess._match_incorrect` over the remaining `parts` (index `i`).
After an INCORRECT entry's scan passes, the source executes
`character_matched_list[i] = True`, which raises `IndexError` when
`i` is not below the claimed list's length. -/
def matchIncorrectGo (word : List Nat) :
    List (Nat × GameResponse) → Nat → List Bool → Option (Bool × List Bool)
  | [], _, cml => some (true, cml)
  | (gc, gr) :: rest, i, cml =>
    if gr = GameResponse.INCORRECT then
      if unclaimedOccur gc word 0 cml then some (false, cml)
      else if i < cml.length then matchIncorrectGo word rest (i + 1) (cml.set i true)
      else none
    else matchIncorrectGo word rest (i + 1) cml

/-- `Guess._match_incorrect`. -/
def Guess.match_incorrect (g : Guess) (word : List Nat) (cml : List Bool) :
    Option (Bool × List Bool) :=
  matchIncorrectGo word g.parts 0 cml

/-- `Guess.match`: uppercase the word, then run the three passes in order,
stopping with `false` as soon as one fails.  `none` models an uncaught
`IndexError` inside a pass. -/
def Guess.matches (g : Guess) (word0 : List Nat) : Option Bool :=
  let word := word0.map upperN
  let cml0 := List.replicate word.length false
  match g.match_correct word cml0 with
  | none => none
  | some (false, _) => some false
  | some (true, cml1) =>
    match g.match_elsewhere word cml1 with
    | none => none
    | some (false, _) => some false
    | some (true, cml2) =>
      match g.match_incorrect word cml2 with
      | none => none
      | some (b, _) => some b

/-- Modelled from the spec (comparison variant for the refinement claim about
`Guess._match_incorrect`): the ABSENT pass without the line that claims the
guess's own position `i` after an entry's check passes.  With that line gone,
its possible `IndexError` is gone too, and the index `i` is no longer used. -/
def matchIncorrectNoClaimGo (word : List Nat) :
    List (Nat × GameResponse) → List Bool → Option (Bool × List Bool)
  | [], cml => some (true, cml)
  | (gc, gr) :: rest, cml =>
    if gr = GameResponse.INCORRECT then
      if unclaimedOccur gc word 0 cml then some (false, cml)
      else matchIncorrectNoClaimGo word rest cml
    else matchIncorrectNoClaimGo word rest cml

/-- Modelled from the spec: `Guess.match` with the variant ABSENT pass that
omits the self-claiming line (the spec asserts this variant computes the same
result as the real algorithm). -/
def Guess.matchesNoAbsentClaim (g : Guess) (word0 : List Nat) : Option Bool :=
  let word := word0.map upperN
  let cml0 := List.replicate word.length false
  match g.match_correct word cml0 with
  | none => none
  | some (false, _) => some false
  | some (true, cml1) =>
    match g.match_elsewhere word cml1 with
    | none => none
    | some (false, _) => some false
    | some (true, cml2) =>
      match matchIncorrectNoClaimGo word g.parts cml2 with
      | none => none
      | some (b, _) => some b

/-- The 26-entry letter score table constant from `_score_word` (A through Z). -/
def initialScores : List Nat :=
  [1, 3, 3, 2, 1, 4, 2, 4, 1, 8, 5, 1, 3, 1, 1, 3, 10, 1, 1, 1, 1, 4, 4, 8, 4, 10]

/-- Python list indexing semantics: a non-negative index must be below the
length; a negative index wraps once from the end; anything else raises
`IndexError` (`none`).  Returns the effective non-negative index. -/
def pyListIndex (n : Int) (len : Nat) : Option Nat :=
  if 0 ≤ n ∧ n < (len : Int) then some n.toNat
  else if -(len : Int) ≤ n ∧ n < 0 then some (n + (len : Int)).toNat
  else none

/-- Loop of `_score_word`: `array_index = ord(ch) - ord("A")` (an `Int`, so
Python's negative-index wrap can apply), add the current table entry to the
running total, then increment that entry. -/
def scoreWordGo : List Nat → List Nat → Nat → Option Nat
  | [], _, acc => some acc
  | ch :: rest, scores, acc =>
    match pyListIndex ((ch : Int) - 65) scores.length with
    | none => none
    | some k => scoreWordGo rest (scores.set k (scores.getD k 0 + 1)) (acc + scores.getD k 0)

/-- `_score_word`: score a word from a fresh copy of the table. -/
def score_word (word : List Nat) : Option Nat := scoreWordGo word initialScores 0

/-- The scores of the words of a list, left to right; `none` as soon as one
raises (mirrors the list comprehension inside `_rank_wordlist`). -/
def scoresOf : List (List Nat) → Option (List Nat)
  | [] => some []
  | w :: rest =>
    match score_word w with
    | none => none
    | some s =>
      match scoresOf rest with
      | none => none
      | some ss => some (s :: ss)

/-- `_rank_wordlist`: uppercase the words, pair each index with its word's
score, stable-sort the pairs by score (Python's `sorted` with
`key=lambda pair: pair[1]` is stable; `List.mergeSort` is the stable sort of
the Lean library), and read the words back through the sorted index order.
The read `upper_words[i]` is always in bounds, since every index comes from
the enumeration. -/
def rank_wordlist (words : List (List Nat)) : Option (List (List Nat)) :=
  let upper_words := words.map (List.map upperN)
  match scoresOf upper_words with
  | none => none
  | some scs =>
    let pairs := (List.range upper_words.length).zip scs
    let sorted_order := pairs.mergeSort (fun a b => a.2 ≤ b.2)
    some (sorted_order.map (fun p => upper_words.getD p.1 []))

/-- `Dictionary` from `dictionary.py`: its `_word_list` state. -/
structure Dictionary where
  word_list : List (List Nat)
  deriving DecidableEq

/-- `Dictionary.__init__`: uppercase as given when `already_ranked`, else
rank (which can only raise from scoring a letter far outside the alphabet). -/
def Dictionary.make (words : List (List Nat)) (already_ranked : Bool) :
    Option Dictionary :=
  if already_ranked then some ⟨words.map (List.map upperN)⟩
  else
    match rank_wordlist words with
    | none => none
    | some ranked => some ⟨ranked⟩

/-- `Dictionary.__len__`. -/
def Dictionary.len (d : Dictionary) : Nat := d.word_list.length

/-- `Dictionary.word_size`: length of the first word, or 0 when empty. -/
def Dictionary.word_size (d : Dictionary) : Nat :=
  match d.word_list with
  | [] => 0
  | w :: _ => w.length

/-- `Dictionary.get_most_likely_word`: the first word, or `None` when the
dictionary is empty. -/
def Dictionary.get_most_likely_word (d : Dictionary) : Option (List Nat) :=
  d.word_list.head?

/-- `filter(guess.match, word_list)` with the fallible matcher: `none` as
soon as one `match` call raises. -/
def filterMatch (g : Guess) : List (List Nat) → Option (List (List Nat))
  | [] => some []
  | w :: rest =>
    match g.matches w with
    | none => none
    | some b =>
      match filterMatch g rest with
      | none => none
      | some ws => some (if b then w :: ws else ws)

/-- `Dictionary.prune`: build a new dictionary, marked already ranked, from
the words the matcher accepts. -/
def Dictionary.prune (d : Dictionary) (g : Guess) : Option Dictionary :=
  match filterMatch g d.word_list with
  | none => none
  | some ws => Dictionary.make ws true

/-- State-passing rendering of `Dictionary.prune` for the frame property:
the pair is (return value, receiver state after the call).  The method body
only reads `self._word_list` — the filter builds a fresh list and the new
`Dictionary` is a separate object — so the post-state is the pre-state. -/
def Dictionary.pruneSt (d : Dictionary) (g : Guess) :
    Option Dictionary × Dictionary :=
  (d.prune g, d)

-- Scratch checks against the repository's own test suite (verified traces).
example :
    (Guess.make [('f'.toNat, .CORRECT), ('o'.toNat, .CORRECT), ('o'.toNat, .CORRECT)]).matches
      (strToWord "fOo") = some true := by decide

example :
    (Guess.make [('f'.toNat, .ELSEWHERE), ('o'.toNat, .CORRECT), ('o'.toNat, .ELSEWHERE)]).matches
      (strToWord "oof") = some true := by decide

example :
    (Guess.make [('f'.toNat, .CORRECT), ('o'.toNat, .CORRECT), ('o'.toNat, .CORRECT)]).matches
      (strToWord "woo") = some false := by decide

example :
    (Guess.make [('f'.toNat, .ELSEWHERE), ('o'.toNat, .ELSEWHERE), ('o'.toNat, .INCORRECT)]).matches
      (strToWord "off") = some true := by decide

example :
    (Guess.make [('g'.toNat, .INCORRECT), ('r'.toNat, .ELSEWHERE), ('e'.toNat, .ELSEWHERE),
      ('e'.toNat, .INCORRECT), ('n'.toNat, .INCORRECT)]).matches
      (strToWord "acrue") = some true := by decide

example :
    (Guess.make [('a'.toNat, .ELSEWHERE), ('b'.toNat, .ELSEWHERE), ('c'.toNat, .ELSEWHERE),
      ('d'.toNat, .ELSEWHERE), ('e'.toNat, .ELSEWHERE)]).matches
      (strToWord "ecabd") = some true := by decide

example :
    (Guess.make [('a'.toNat, .ELSEWHERE), ('b'.toNat, .ELSEWHERE), ('c'.toNat, .ELSEWHERE),
      ('d'.toNat, .ELSEWHERE), ('e'.toNat, .ELSEWHERE)]).matches
      (strToWord "aaaaa") = some false := by decide

example :
    (Guess.make [('f'.toNat, .CORRECT), ('o'.toNat, .ELSEWHERE), ('o'.toNat, .INCORRECT)]).matches
      (strToWord "fio") = some false := by decide

example :
    (Guess.make [('w'.toNat, .INCORRECT), ('o'.toNat, .ELSEWHERE), ('r'.toNat, .ELSEWHERE),
      ('r'.toNat, .ELSEWHERE), ('y'.toNat, .INCORRECT)]).matches
      (strToWord "order") = some false := by decide

example :
    (Guess.make [('w'.toNat, .INCORRECT), ('o'.toNat, .ELSEWHERE), ('r'.toNat, .ELSEWHERE),
      ('r'.toNat, .ELSEWHERE), ('y'.toNat, .INCORRECT)]).matches
      (strToWord "odour") = some false := by decide

example :
    (Guess.make [('a'.toNat, .INCORRECT), ('b'.toNat, .INCORRECT)]).matches
      (strToWord "bc") = some true := by decide

/-- C1: the spec (and the repository's own test
`test_guess_with_double_character_allows_answer_with_double_character`)
claims that the feedback [(W,ABSENT),(O,ELSEWHERE),(R,ELSEWHERE),
(R,ELSEWHERE),(Y,ABSENT)] matches "ORDER".  The code returns false on
"ORDER": the first ELSEWHERE R's inner scan claims every eligible R slot
(the scan never breaks), starving the second ELSEWHERE R.  On "ODOUR" it
returns false, as the spec also says. -/
theorem c1_double_elsewhere_order_odour :
    (Guess.make [('W'.toNat, .INCORRECT), ('O'.toNat, .ELSEWHERE), ('R'.toNat, .ELSEWHERE),
      ('R'.toNat, .ELSEWHERE), ('Y'.toNat, .INCORRECT)]).matches (strToWord "ORDER") =
        some false ∧
    (Guess.make [('W'.toNat, .INCORRECT), ('O'.toNat, .ELSEWHERE), ('R'.toNat, .ELSEWHERE),
      ('R'.toNat, .ELSEWHERE), ('Y'.toNat, .INCORRECT)]).matches (strToWord "ODOUR") =
        some false := by decide

/-- C2: the claim says the self-claiming line at the end of each ABSENT
entry's check is pure bookkeeping with no effect on the result.  It is not:
for F = [(A,ABSENT),(B,ABSENT)] and W = "BC" (equal lengths), the real
algorithm answers true while the variant without that line answers false —
the position claimed after the A entry's check masks the occurrence of B at
position 0 from the later B entry. -/
theorem c2_absent_self_claim_divergence :
    (Guess.make [('A'.toNat, .INCORRECT), ('B'.toNat, .INCORRECT)]).matches
      (strToWord "BC") = some true ∧
    (Guess.make [('A'.toNat, .INCORRECT), ('B'.toNat, .INCORRECT)]).matchesNoAbsentClaim
      (strToWord "BC") = some false := by decide

/-- C4: the claimed ACRUE instance does hold, but the claim's general second
half fails: for F = [(X,ABSENT),(Y,ABSENT)] and W = "YZ", the word contains
an occurrence of the ABSENT letter Y at a position claimed by no
MATCH/ELSEWHERE evidence at all (there is none), yet the matcher answers
true, because the X entry's bookkeeping self-claim covers position 0. -/
theorem c4_acrue_and_masked_absent :
    (Guess.make [('G'.toNat, .INCORRECT), ('R'.toNat, .ELSEWHERE), ('E'.toNat, .ELSEWHERE),
      ('E'.toNat, .INCORRECT), ('N'.toNat, .INCORRECT)]).matches (strToWord "ACRUE") =
        some true ∧
    (Guess.make [('X'.toNat, .INCORRECT), ('Y'.toNat, .INCORRECT)]).matches
      (strToWord "YZ") = some true := by decide

unseal List.merge List.mergeSort in
/-- C3 counterexample: "AB" and "BA" have equal scores (4), so the stable
sort keeps them in input order; the two permuted input lists yield two
different ranked sequences, refuting order-independence as claimed. -/
theorem c3_counterexample :
    ([strToWord "AB", strToWord "BA"] : List (List Nat)).Perm
      [strToWord "BA", strToWord "AB"] ∧
    Dictionary.make [strToWord "AB", strToWord "BA"] false ≠
      Dictionary.make [strToWord "BA", strToWord "AB"] false := by decide

unseal List.merge List.mergeSort in
/-- C7: a Candidate Set of length 0 — in general, and in particular the one
built from an empty raw word list and one produced by a prune that
eliminates every candidate — reports length 0 and an explicit `none` best
word, without raising. -/
theorem c7_empty_and_exhausted :
    (∀ d : Dictionary, d.len = 0 → d.get_most_likely_word = none) ∧
    (Dictionary.make [] false = some ⟨[]⟩ ∧ Dictionary.len ⟨[]⟩ = 0 ∧
      Dictionary.get_most_likely_word ⟨[]⟩ = none) ∧
    ((Dictionary.mk [strToWord "XYZ"]).prune
        (Guess.make [('B'.toNat, .ELSEWHERE), ('C'.toNat, .INCORRECT),
          ('D'.toNat, .INCORRECT)]) = some ⟨[]⟩) := by
  refine ⟨fun d hd => ?_, by decide, by decide⟩
  unfold Dictionary.get_most_likely_word
  unfold Dictionary.len at hd
  rw [List.length_eq_zero.mp hd]
  rfl

/-- C7 witness: the general conjunct applied to the concrete empty
dictionary. -/
theorem c7_witness : (Dictionary.mk []).get_most_likely_word = none :=
  c7_empty_and_exhausted.1 ⟨[]⟩ (by decide)

/-- C8: `Dictionary.prune` leaves the receiver untouched — in the
state-passing rendering, the receiver's post-call state (word sequence,
order and length included) is its pre-call state, and the returned value is
the pruned copy. -/
theorem c8_prune_frame :
    ∀ (d : Dictionary) (g : Guess),
      (d.pruneSt g).2 = d ∧ (d.pruneSt g).2.word_list = d.word_list ∧
      (d.pruneSt g).1 = d.prune g :=
  fun _ _ => ⟨rfl, rfl, rfl⟩

/-- A valid Python index is below the list length. -/
theorem pyListIndex_lt {n : Int} {len k : Nat} (h : pyListIndex n len = some k) :
    k < len := by
  unfold pyListIndex at h
  split_ifs at h with h1 h2 <;> simp_all <;> omega

/-- Reading back the slot just written (in-bounds write). -/
theorem getD_set_self (l : List Nat) {i : Nat} (h : i < l.length) (v : Nat) :
    (l.set i v).getD i 0 = v := by
  simp [List.getD_eq_getElem?_getD, List.getElem?_set_self', List.getElem?_eq_getElem h]

/-- Reading a slot other than the one just written. -/
theorem getD_set_ne (l : List Nat) {i j : Nat} (h : i ≠ j) (v : Nat) :
    (l.set i v).getD j 0 = l.getD j 0 := by
  simp [List.getD_eq_getElem?_getD, List.getElem?_set_ne h]

/-- The scoring loop is invariant under permutations of the remaining word,
whatever the current table and running total: each step reads and bumps a
single table slot determined by its letter, and two consecutive steps
commute whether they hit the same slot or different slots. -/
theorem scoreWordGo_perm {w1 w2 : List Nat} (hp : w1.Perm w2) :
    ∀ (scores : List Nat) (acc : Nat),
      scoreWordGo w1 scores acc = scoreWordGo w2 scores acc := by
  induction hp with
  | nil => intro scores acc; rfl
  | cons x p ih =>
    intro scores acc
    simp only [scoreWordGo]
    cases h : pyListIndex ((x : Int) - 65) scores.length with
    | none => rfl
    | some k => exact ih _ _
  | swap x y l =>
    intro scores acc
    simp only [scoreWordGo, List.length_set]
    cases hy : pyListIndex ((y : Int) - 65) scores.length with
    | none =>
      cases hx : pyListIndex ((x : Int) - 65) scores.length with
      | none => rfl
      | some kx => simp only [scoreWordGo, List.length_set, hy]
    | some ky =>
      cases hx : pyListIndex ((x : Int) - 65) scores.length with
      | none => simp only [scoreWordGo, List.length_set, hx]
      | some kx =>
        simp only [scoreWordGo, List.length_set, hx, hy]
        by_cases hk : kx = ky
        · subst hk
          rw [getD_set_self _ (pyListIndex_lt hx)]
        · rw [getD_set_ne _ (fun e => hk e.symm), getD_set_ne _ hk,
            List.set_comm _ _ _ (fun e => hk e.symm), Nat.add_right_comm]
  | trans p1 p2 ih1 ih2 =>
    intro scores acc
    exact (ih1 scores acc).trans (ih2 scores acc)

/-- C10: the score is invariant under permutation of a word's letters: for
every word and every rearrangement of its letters, `_score_word` computes
the same result (including agreeing on whether it raises), because each
occurrence of a letter costs its base weight plus the number of earlier
occurrences of that letter, independent of position. -/
theorem c10_score_perm_invariant (w1 w2 : List Nat) (hp : w1.Perm w2) :
    score_word w1 = score_word w2 :=
  scoreWordGo_perm hp initialScores 0

/-- C10 witness: "AB" and "BA" are permutations and get the same score. -/
theorem c10_witness : score_word (strToWord "AB") = score_word (strToWord "BA") :=
  c10_score_perm_invariant _ _ (by decide)

/-- The spec glossary's letter weight table constant
(A1 B3 C3 D2 E1 F4 G2 H4 I1 J8 K5 L1 M3 N1 O1 P3 Q10 R1 S1 T1 U1 V4 W4 X8
Y4 Z10). -/
def glossaryWeights : List Nat :=
  [1, 3, 3, 2, 1, 4, 2, 4, 1, 8, 5, 1, 3, 1, 1, 3, 10, 1, 1, 1, 1, 4, 4, 8, 4, 10]

/-- The glossary weight of an uppercase letter. -/
def specWeight (c : Nat) : Nat := glossaryWeights.getD (c - 65) 0

/-- The spec's reading of the score, with `pre` the already-processed
prefix: each letter costs its current table value, which is its seed weight
plus the number of earlier occurrences of the same letter (the table entry
was incremented once per earlier occurrence). -/
def specScoreFrom (pre : List Nat) : List Nat → Nat
  | [] => 0
  | c :: rest => specWeight c + pre.count c + specScoreFrom (pre ++ [c]) rest

/-- The spec's score of a whole word. -/
def specScore (word : List Nat) : Nat := specScoreFrom [] word

/-- The scores table of `_score_word` after processing the letters of
`pre` (for A-Z letters the effective index of `c` is `c - 65`). -/
def tableOf (pre : List Nat) : List Nat :=
  pre.foldl (fun s c => s.set (c - 65) (s.getD (c - 65) 0 + 1)) initialScores

theorem tableOf_aux_length (pre : List Nat) :
    ∀ s : List Nat,
      (pre.foldl (fun s c => s.set (c - 65) (s.getD (c - 65) 0 + 1)) s).length =
        s.length := by
  induction pre with
  | nil => intro s; rfl
  | cons c rest ih => intro s; rw [List.foldl_cons, ih, List.length_set]

theorem tableOf_length (pre : List Nat) : (tableOf pre).length = 26 := by
  rw [tableOf, tableOf_aux_length]; rfl

theorem tableOf_concat (pre : List Nat) (c : Nat) :
    tableOf (pre ++ [c]) =
      (tableOf pre).set (c - 65) ((tableOf pre).getD (c - 65) 0 + 1) := by
  rw [tableOf, List.foldl_concat]; rfl

/-- The current table value of an A-Z letter after processing an A-Z prefix:
seed weight plus the number of occurrences already seen. -/
theorem tableOf_getD (pre : List Nat) (c : Nat) (hc : 65 ≤ c ∧ c ≤ 90)
    (hpre : ∀ d ∈ pre, 65 ≤ d ∧ d ≤ 90) :
    (tableOf pre).getD (c - 65) 0 = specWeight c + pre.count c := by
  induction pre using List.reverseRecOn with
  | nil => simp [tableOf, specWeight, initialScores, glossaryWeights]
  | append_singleton pre d ih =>
    have hd : 65 ≤ d ∧ d ≤ 90 := hpre d (by simp)
    have hpre' : ∀ e ∈ pre, 65 ≤ e ∧ e ≤ 90 := fun e he => hpre e (by simp [he])
    rw [tableOf_concat]
    by_cases hcd : c = d
    · subst hcd
      rw [getD_set_self _ (by rw [tableOf_length]; omega), ih hpre']
      simp [List.count_append, List.count_singleton]
      omega
    · have hne : d - 65 ≠ c - 65 := by omega
      rw [getD_set_ne _ hne, ih hpre']
      simp [List.count_append, List.count_singleton]
      omega

/-- The scoring loop computes the spec's score: from the table state of an
A-Z prefix, processing an A-Z word adds exactly the spec score of the word
relative to that prefix. -/
theorem scoreWordGo_spec (word : List Nat) :
    ∀ (pre : List Nat) (acc : Nat),
      (∀ c ∈ word, 65 ≤ c ∧ c ≤ 90) → (∀ c ∈ pre, 65 ≤ c ∧ c ≤ 90) →
      scoreWordGo word (tableOf pre) acc = some (acc + specScoreFrom pre word) := by
  induction word with
  | nil => intro pre acc _ _; simp [scoreWordGo, specScoreFrom]
  | cons c rest ih =>
    intro pre acc hw hpre
    have hc : 65 ≤ c ∧ c ≤ 90 := hw c (by simp)
    have hidx : pyListIndex ((c : Int) - 65) (tableOf pre).length = some (c - 65) := by
      rw [tableOf_length]
      unfold pyListIndex
      split_ifs with h1 h2
      · simp only [Option.some.injEq]; omega
      · omega
      · omega
    simp only [scoreWordGo, hidx]
    rw [tableOf_getD pre c hc hpre]
    have hset : (tableOf pre).set (c - 65) (specWeight c + pre.count c + 1) =
        tableOf (pre ++ [c]) := by
      rw [tableOf_concat, tableOf_getD pre c hc hpre]
    rw [hset, ih (pre ++ [c]) _ (fun d hd => hw d (by simp [hd]))
      (by intro d hd; rcases List.mem_append.mp hd with h | h
          · exact hpre d h
          · simp at h; subst h; exact hc)]
    simp only [specScoreFrom, Option.some.injEq]
    omega

unseal List.merge List.mergeSort in
/-- C6: on words over A-Z, `_score_word` computes the spec's score — the
sum, left to right, of the glossary weight of each letter plus the number
of its earlier occurrences (the "current table value" with the entry
incremented after each use); and the Candidate Set built from
["ABC","ABA","XYZ"] is ordered ["ABA","ABC","XYZ"] with best word "ABA". -/
theorem c6_score_spec :
    (∀ word : List Nat, (∀ c ∈ word, 65 ≤ c ∧ c ≤ 90) →
      score_word word = some (specScore word)) ∧
    Dictionary.make [strToWord "ABC", strToWord "ABA", strToWord "XYZ"] false =
      some ⟨[strToWord "ABA", strToWord "ABC", strToWord "XYZ"]⟩ ∧
    (Dictionary.make [strToWord "ABC", strToWord "ABA", strToWord "XYZ"] false).bind
      Dictionary.get_most_likely_word = some (strToWord "ABA") := by
  refine ⟨fun word hw => ?_, by decide, by decide⟩
  have h := scoreWordGo_spec word [] 0 hw (by intro c hc; cases hc)
  simpa [score_word, specScore, tableOf] using h

/-- C6 witness: the general conjunct applied to the concrete word "ABA". -/
theorem c6_witness : score_word (strToWord "ABA") = some (specScore (strToWord "ABA")) :=
  c6_score_spec.1 _ (by decide)

/-- The MATCH pass succeeds (no IndexError) and preserves the claimed list's
length whenever the remaining entries fit inside the word. -/
theorem matchCorrectGo_some (word : List Nat) :
    ∀ (ps : List (Nat × GameResponse)) (i : Nat) (cml : List Bool),
      i + ps.length ≤ word.length → cml.length = word.length →
      ∃ b out, matchCorrectGo word ps i cml = some (b, out) ∧
        out.length = word.length := by
  intro ps
  induction ps with
  | nil => intro i cml _ hc; exact ⟨true, cml, rfl, hc⟩
  | cons p rest ih =>
    intro i cml hi hc
    obtain ⟨gc, gr⟩ := p
    have hiw : i < word.length := by simp at hi; omega
    simp only [matchCorrectGo]
    by_cases hgr : gr = GameResponse.CORRECT
    · simp only [hgr, if_true]
      rw [List.get?_eq_getElem?, List.getElem?_eq_getElem hiw]
      by_cases hne : word[i] ≠ gc
      · simp only [if_pos hne]
        exact ⟨false, cml, rfl, hc⟩
      · simp only [if_neg hne]
        exact ih (i + 1) (cml.set i true) (by simp at hi ⊢; omega)
          (by rw [List.length_set, hc])
    · simp only [if_neg hgr]
      exact ih (i + 1) cml (by simp at hi ⊢; omega) hc

/-- The ELSEWHERE inner scan succeeds and preserves the claimed list's
length whenever the remaining word positions fit inside the parts list. -/
theorem elsewhereScanGo_some (parts : List (Nat × GameResponse)) (gc : Nat) :
    ∀ (wrest : List Nat) (j : Nat) (cml : List Bool) (found : Bool),
      j + wrest.length ≤ parts.length →
      ∃ out f, elsewhereScanGo parts gc wrest j cml found = some (out, f) ∧
        out.length = cml.length := by
  intro wrest
  induction wrest with
  | nil => intro j cml found _; exact ⟨cml, found, rfl, rfl⟩
  | cons ch rest ih =>
    intro j cml found hj
    have hjp : j < parts.length := by simp at hj; omega
    simp only [elsewhereScanGo]
    by_cases hskip : cml.getD j false ∨ ch ≠ gc
    · simp only [if_pos hskip]
      exact ih (j + 1) cml found (by simp at hj ⊢; omega)
    · simp only [if_neg hskip]
      obtain ⟨⟨gcj, grj⟩, hget⟩ : ∃ pj, parts.get? j = some pj :=
        ⟨parts.get ⟨j, hjp⟩, List.get?_eq_get hjp⟩
      rw [hget]
      by_cases hc2 : gcj = gc ∧ grj ≠ GameResponse.CORRECT
      · simp only [if_pos hc2]
        exact ih (j + 1) cml found (by simp at hj ⊢; omega)
      · simp only [if_neg hc2]
        obtain ⟨out, f, he, hl⟩ := ih (j + 1) (cml.set j true) true
          (by simp at hj ⊢; omega)
        exact ⟨out, f, he, by rw [hl, List.length_set]⟩

/-- The ELSEWHERE pass succeeds and preserves the claimed list's length
whenever the remaining entries fit inside the word and the word fits inside
the full parts list. -/
theorem matchElsewhereGo_some (parts : List (Nat × GameResponse)) (word : List Nat)
    (hwp : word.length ≤ parts.length) :
    ∀ (ps : List (Nat × GameResponse)) (i : Nat) (cml : List Bool),
      i + ps.length ≤ word.length →
      ∃ b out, matchElsewhereGo parts word ps i cml = some (b, out) ∧
        out.length = cml.length := by
  intro ps
  induction ps with
  | nil => intro i cml _; exact ⟨true, cml, rfl, rfl⟩
  | cons p rest ih =>
    intro i cml hi
    obtain ⟨gc, gr⟩ := p
    have hiw : i < word.length := by simp at hi; omega
    simp only [matchElsewhereGo]
    by_cases hgr : gr = GameResponse.ELSEWHERE
    · simp only [hgr, if_true]
      rw [List.get?_eq_getElem?, List.getElem?_eq_getElem hiw]
      by_cases heq : word[i] = gc
      · simp only [if_pos heq]
        exact ⟨false, cml, rfl, rfl⟩
      · simp only [if_neg heq]
        obtain ⟨out2, f, hscan, hl2⟩ :=
          elsewhereScanGo_some parts gc word 0 cml false (by omega)
        rw [hscan]
        by_cases hf : f = true
        · subst hf
          simp only [if_true]
          obtain ⟨b, out, he, hl⟩ := ih (i + 1) out2 (by simp at hi ⊢; omega)
          exact ⟨b, out, he, by rw [hl, hl2]⟩
        · simp only [if_neg hf]
          exact ⟨false, out2, rfl, hl2⟩
    · simp only [if_neg hgr]
      exact ih (i + 1) cml (by simp at hi ⊢; omega)

/-- The ABSENT pass succeeds whenever the remaining entries fit inside the
claimed list (whose write at the guess's own position is then in bounds). -/
theorem matchIncorrectGo_some (word : List Nat) :
    ∀ (ps : List (Nat × GameResponse)) (i : Nat) (cml : List Bool),
      i + ps.length ≤ cml.length →
      ∃ b out, matchIncorrectGo word ps i cml = some (b, out) := by
  intro ps
  induction ps with
  | nil => intro i cml _; exact ⟨true, cml, rfl⟩
  | cons p rest ih =>
    intro i cml hi
    obtain ⟨gc, gr⟩ := p
    have hic : i < cml.length := by simp at hi; omega
    simp only [matchIncorrectGo]
    by_cases hgr : gr = GameResponse.INCORRECT
    · simp only [hgr, if_true]
      by_cases hocc : unclaimedOccur gc word 0 cml = true
      · simp only [if_pos hocc]
        exact ⟨false, cml, rfl⟩
      · simp only [if_neg hocc, if_pos hic]
        exact ih (i + 1) (cml.set i true) (by simp at hi ⊢; omega)
    · simp only [if_neg hgr]
      exact ih (i + 1) cml (by simp at hi ⊢; omega)

/-- C9: for a word of the same length as the feedback, `Guess.match`
evaluates all three passes with every index access in bounds: in this total
embedding, where an out-of-bounds access yields `none`, the result is
always `some` for equal-length inputs. -/
theorem c9_match_safe (g : Guess) (word : List Nat)
    (h : word.length = g.parts.length) :
    (g.matches word).isSome := by
  simp only [Guess.matches, Guess.match_correct, Guess.match_elsewhere,
    Guess.match_incorrect]
  have hlen : (word.map upperN).length = g.parts.length := by
    rw [List.length_map, h]
  obtain ⟨b1, out1, he1, hl1⟩ := matchCorrectGo_some (word.map upperN) g.parts 0
    (List.replicate (word.map upperN).length false) (by omega)
    (List.length_replicate _ _)
  simp only [he1]
  cases b1
  · simp
  · obtain ⟨b2, out2, he2, hl2⟩ := matchElsewhereGo_some g.parts (word.map upperN)
      (le_of_eq hlen) g.parts 0 out1 (by omega)
    simp only [he2]
    cases b2
    · simp
    · obtain ⟨b3, out3, he3⟩ := matchIncorrectGo_some (word.map upperN) g.parts 0 out2
        (by rw [hl2, hl1]; omega)
      simp only [he3]
      simp

/-- C9 witness: a concrete equal-length feedback/word pair is safe. -/
theorem c9_witness :
    ((Guess.make [('A'.toNat, GameResponse.CORRECT),
      ('B'.toNat, GameResponse.INCORRECT)]).matches (strToWord "AB")).isSome :=
  c9_match_safe _ _ (by decide)

/-- ASCII uppercasing is idempotent. -/
theorem upperN_idem (c : Nat) : upperN (upperN c) = upperN c := by
  simp only [upperN]
  split_ifs <;> omega

/-- Word-level uppercasing is idempotent. -/
theorem upperWord_idem (w : List Nat) : (w.map upperN).map upperN = w.map upperN := by
  rw [List.map_map]
  exact List.map_congr_left (fun c _ => upperN_idem c)

/-- Reading any position of an uppercased word list yields an upper-fixed
word (the default for an out-of-bounds read being the empty word). -/
theorem upperFixed_getD (ws : List (List Nat)) (i : Nat) :
    ((ws.map (List.map upperN)).getD i []).map upperN =
      (ws.map (List.map upperN)).getD i [] := by
  rcases Nat.lt_or_ge i (ws.map (List.map upperN)).length with h | h
  · rw [List.getD_eq_getElem?_getD, List.getElem?_eq_getElem h]
    have hi : i < ws.length := by simpa using h
    simp only [List.getElem_map, Option.getD_some]
    exact upperWord_idem _
  · rw [List.getD_eq_getElem?_getD, List.getElem?_eq_none h]
    rfl

/-- Every word stored by the `Dictionary` constructor is upper-fixed: both
branches uppercase, and the ranking branch only rearranges the uppercased
words. -/
theorem make_words_upper {ws : List (List Nat)} {ar : Bool} {d : Dictionary}
    (h : Dictionary.make ws ar = some d) :
    ∀ w ∈ d.word_list, w.map upperN = w := by
  intro w hw
  cases ar with
  | true =>
    simp only [Dictionary.make, if_true] at h
    obtain rfl : d = ⟨ws.map (List.map upperN)⟩ := by
      cases h
      rfl
    obtain ⟨w0, _, rfl⟩ := List.mem_map.mp hw
    exact upperWord_idem w0
  | false =>
    simp only [Dictionary.make, Bool.false_eq_true, if_false] at h
    cases hr : rank_wordlist ws with
    | none => rw [hr] at h; cases h
    | some out =>
      rw [hr] at h
      cases h
      simp only [rank_wordlist] at hr
      cases hs : scoresOf (ws.map (List.map upperN)) with
      | none => rw [hs] at hr; cases hr
      | some scs =>
        rw [hs] at hr
        simp only [Option.some.injEq] at hr
        rw [← hr] at hw
        obtain ⟨p, _, rfl⟩ := List.mem_map.mp hw
        exact upperFixed_getD ws p.1

/-- `filterMatch` succeeds and computes the plain filter whenever no
`match` call raises. -/
theorem filterMatch_eq (g : Guess) :
    ∀ ws : List (List Nat), (∀ w ∈ ws, (g.matches w).isSome) →
      filterMatch g ws = some (ws.filter (fun w => decide (g.matches w = some true))) := by
  intro ws
  induction ws with
  | nil => intro _; rfl
  | cons w rest ih =>
    intro h
    have hw := h w (by simp)
    obtain ⟨b, hb⟩ := Option.isSome_iff_exists.mp hw
    have hrest := ih (fun w' hw' => h w' (by simp [hw']))
    cases b with
    | true => simp [filterMatch, hb, hrest, List.filter_cons]
    | false => simp [filterMatch, hb, hrest, List.filter_cons]

/-- Filtering preserves upper-fixedness, so the constructor's re-uppercasing
inside `prune` is the identity on the filtered words. -/
theorem prune_of_upper (d : Dictionary) (g : Guess)
    (hupper : ∀ w ∈ d.word_list, w.map upperN = w)
    (hsome : ∀ w ∈ d.word_list, (g.matches w).isSome) :
    d.prune g =
      some ⟨d.word_list.filter (fun w => decide (g.matches w = some true))⟩ := by
  unfold Dictionary.prune
  rw [filterMatch_eq g d.word_list hsome]
  simp only [Dictionary.make, if_true]
  congr 1
  congr 1
  have hmap : (d.word_list.filter (fun w => decide (g.matches w = some true))).map
      (List.map upperN) =
      (d.word_list.filter (fun w => decide (g.matches w = some true))).map id := by
    refine List.map_congr_left (fun w hwf => ?_)
    exact hupper w (List.mem_of_mem_filter hwf)
  rw [hmap, List.map_id]

unseal List.merge List.mergeSort in
/-- C5: for every constructor-built Candidate Set whose words the matcher
can score without raising, `prune` returns the new set whose word sequence
is exactly the subsequence of the receiver's words accepted by the matcher,
in the same relative order; by definition it builds that set with
`already_ranked = True` (pre-ranked).  The concrete instance from the spec:
pruning the set built from ["ABC","ABA","XYZ"] by
(B,ELSEWHERE),(C,ABSENT),(D,ABSENT) yields exactly ["ABA"]. -/
theorem c5_prune_filters :
    (∀ (ws : List (List Nat)) (ar : Bool) (g : Guess) (d : Dictionary),
      Dictionary.make ws ar = some d →
      (∀ w ∈ d.word_list, (g.matches w).isSome) →
      d.prune g =
        some ⟨d.word_list.filter (fun w => decide (g.matches w = some true))⟩) ∧
    (∀ (d : Dictionary) (g : Guess),
      d.prune g = (filterMatch g d.word_list).bind (fun ws => Dictionary.make ws true)) ∧
    (Dictionary.make [strToWord "ABC", strToWord "ABA", strToWord "XYZ"] false).bind
      (fun d => d.prune (Guess.make [('B'.toNat, .ELSEWHERE), ('C'.toNat, .INCORRECT),
        ('D'.toNat, .INCORRECT)])) = some ⟨[strToWord "ABA"]⟩ := by
  refine ⟨fun ws ar g d hmk hsome => prune_of_upper d g (make_words_upper hmk) hsome,
    fun d g => ?_, by decide⟩
  unfold Dictionary.prune
  cases filterMatch g d.word_list <;> rfl

/-- C5 witness: the general conjunct applied to the one-word pre-ranked set
["ABA"] and the (B,ELSEWHERE),(C,ABSENT),(D,ABSENT) feedback. -/
theorem c5_witness :
    (Dictionary.mk [strToWord "ABA"]).prune
        (Guess.make [('B'.toNat, .ELSEWHERE), ('C'.toNat, .INCORRECT),
          ('D'.toNat, .INCORRECT)]) =
      some ⟨(Dictionary.mk [strToWord "ABA"]).word_list.filter
        (fun w => decide ((Guess.make [('B'.toNat, .ELSEWHERE), ('C'.toNat, .INCORRECT),
          ('D'.toNat, .INCORRECT)]).matches w = some true))⟩ :=
  c5_prune_filters.1 [strToWord "ABA"] true _ _ (by decide) (by decide)

/-- `scoresOf` fails exactly when scoring some word of the list fails. -/
theorem scoresOf_eq_none_iff (l : List (List Nat)) :
    scoresOf l = none ↔ ∃ w ∈ l, score_word w = none := by
  induction l with
  | nil => simp [scoresOf]
  | cons w rest ih =>
    cases hw : score_word w with
    | none => simp [scoresOf, hw]
    | some s =>
      cases hr : scoresOf rest with
      | none =>
        simp only [scoresOf, hw, hr, true_iff]
        obtain ⟨w', hw', hnone⟩ := ih.mp hr
        exact ⟨w', by simp [hw'], hnone⟩
      | some ss =>
        simp only [scoresOf, hw, hr]
        constructor
        · intro h; cases h
        · rintro ⟨w', hmem, hnone⟩
          rcases List.mem_cons.mp hmem with rfl | hmem'
          · rw [hw] at hnone; cases hnone
          · have hn : scoresOf rest = none := ih.mpr ⟨w', hmem', hnone⟩
            rw [hr] at hn; cases hn

/-- When `scoresOf` succeeds it returns one score per word, each word's own
score. -/
theorem scoresOf_some_spec :
    ∀ (l : List (List Nat)) (s : List Nat), scoresOf l = some s →
      s.length = l.length ∧
      ∀ i, i < l.length → score_word (l.getD i []) = some (s.getD i 0) := by
  intro l
  induction l with
  | nil =>
    intro s h
    cases h
    exact ⟨rfl, fun i hi => absurd hi (by simp)⟩
  | cons w rest ih =>
    intro s h
    simp only [scoresOf] at h
    cases hw : score_word w with
    | none => rw [hw] at h; cases h
    | some sw =>
      rw [hw] at h
      cases hr : scoresOf rest with
      | none => rw [hr] at h; cases h
      | some ss =>
        rw [hr] at h
        cases h
        obtain ⟨hlen, hidx⟩ := ih ss hr
        refine ⟨by simp [hlen], fun i hi => ?_⟩
        cases i with
        | zero => simpa [List.getD_cons_zero] using hw
        | succ n =>
          simp only [List.getD_cons_succ]
          exact hidx n (by simpa using hi)

/-- Reading the word list back through the unsorted enumeration is the
identity. -/
theorem rank_map_zip (u : List (List Nat)) (s : List Nat) (hlen : s.length = u.length) :
    ((List.range u.length).zip s).map (fun p => u.getD p.1 []) = u := by
  apply List.ext_getElem
  · simp [hlen]
  · intro i h1 h2
    simp only [List.getElem_map, List.getElem_zip, List.getElem_range]
    rw [List.getD_eq_getElem?_getD, List.getElem?_eq_getElem h2, Option.getD_some]

/-- Every (index, score) pair of the enumeration points inside the word
list, at a word whose score it is. -/
theorem pair_mem_spec (u : List (List Nat)) (s : List Nat)
    (hs : scoresOf u = some s) :
    ∀ p ∈ (List.range u.length).zip s,
      p.1 < u.length ∧ score_word (u.getD p.1 []) = some p.2 := by
  intro p hp
  obtain ⟨hlen, hidx⟩ := scoresOf_some_spec u s hs
  obtain ⟨i, hi, hpi⟩ := List.mem_iff_getElem.mp hp
  have hiu : i < u.length := by
    rw [List.length_zip, List.length_range, hlen] at hi
    omega
  have hpv : p = (i, s[i]) := by
    rw [← hpi, List.getElem_zip, List.getElem_range]
  subst hpv
  refine ⟨hiu, ?_⟩
  have h := hidx i hiu
  rwa [List.getD_eq_getElem?_getD s, List.getElem?_eq_getElem (by omega : i < s.length),
    Option.getD_some] at h

/-- Comparison of ranked words: strictly smaller score or equal words.
Antisymmetric, so two sorted permutations of one multiset coincide. -/
def scoreOrder (a b : List Nat) : Prop :=
  (score_word a).getD 0 < (score_word b).getD 0 ∨ a = b

/-- The ranked output is sorted under `scoreOrder` when the words of the
list are pairwise distinguished by their scores. -/
theorem rank_out_sorted (u : List (List Nat)) (s : List Nat)
    (hs : scoresOf u = some s)
    (hinj : ∀ a ∈ u, ∀ b ∈ u, score_word a = score_word b → a = b) :
    List.Sorted scoreOrder
      ((((List.range u.length).zip s).mergeSort (fun a b => a.2 ≤ b.2)).map
        (fun p => u.getD p.1 [])) := by
  have htrans : ∀ a b c : Nat × Nat,
      (decide (a.2 ≤ b.2)) = true → decide (b.2 ≤ c.2) = true →
      decide (a.2 ≤ c.2) = true := by
    intro a b c h1 h2
    simp at h1 h2 ⊢
    omega
  have htotal : ∀ a b : Nat × Nat,
      (decide (a.2 ≤ b.2) || decide (b.2 ≤ a.2)) = true := by
    intro a b
    simp
    omega
  have hpw := List.sorted_mergeSort htrans htotal ((List.range u.length).zip s)
  show List.Pairwise _ _
  rw [List.pairwise_map]
  refine List.Pairwise.imp_of_mem ?_ hpw
  intro p q hp hq hle
  have hp' : p ∈ (List.range u.length).zip s :=
    (List.mergeSort_perm _ _).mem_iff.mp hp
  have hq' : q ∈ (List.range u.length).zip s :=
    (List.mergeSort_perm _ _).mem_iff.mp hq
  obtain ⟨hp1, hp2⟩ := pair_mem_spec u s hs p hp'
  obtain ⟨hq1, hq2⟩ := pair_mem_spec u s hs q hq'
  have hle' : p.2 ≤ q.2 := by simpa using hle
  have hmemp : u.getD p.1 [] ∈ u := by
    rw [List.getD_eq_getElem?_getD, List.getElem?_eq_getElem hp1, Option.getD_some]
    exact List.getElem_mem hp1
  have hmemq : u.getD q.1 [] ∈ u := by
    rw [List.getD_eq_getElem?_getD, List.getElem?_eq_getElem hq1, Option.getD_some]
    exact List.getElem_mem hq1
  rcases Nat.lt_or_ge p.2 q.2 with hlt | hge
  · exact Or.inl (by rw [hp2, hq2]; simpa using hlt)
  · have heq : p.2 = q.2 := by omega
    exact Or.inr (hinj _ hmemp _ hmemq (by rw [hp2, hq2, heq]))

/-- Core of the amended C3: with every score defined and the words pairwise
distinguished by score, the sorted read-back is determined by the multiset
of words alone. -/
theorem rank_output_eq (u1 u2 : List (List Nat)) (s1 s2 : List Nat)
    (hperm : u1.Perm u2)
    (hs1 : scoresOf u1 = some s1) (hs2 : scoresOf u2 = some s2)
    (hinj : ∀ a ∈ u1, ∀ b ∈ u1, score_word a = score_word b → a = b) :
    (((List.range u1.length).zip s1).mergeSort (fun a b => a.2 ≤ b.2)).map
        (fun p => u1.getD p.1 []) =
      (((List.range u2.length).zip s2).mergeSort (fun a b => a.2 ≤ b.2)).map
        (fun p => u2.getD p.1 []) := by
  obtain ⟨hlen1, _⟩ := scoresOf_some_spec u1 s1 hs1
  obtain ⟨hlen2, _⟩ := scoresOf_some_spec u2 s2 hs2
  have hinj2 : ∀ a ∈ u2, ∀ b ∈ u2, score_word a = score_word b → a = b :=
    fun a ha b hb => hinj a (hperm.mem_iff.mpr ha) b (hperm.mem_iff.mpr hb)
  have hpo1 : ((((List.range u1.length).zip s1).mergeSort
      (fun a b => a.2 ≤ b.2)).map (fun p => u1.getD p.1 [])).Perm u1 := by
    have h := List.Perm.map (fun p : Nat × Nat => u1.getD p.1 [])
      (List.mergeSort_perm ((List.range u1.length).zip s1)
        (fun a b => decide (a.2 ≤ b.2)))
    rwa [rank_map_zip u1 s1 hlen1] at h
  have hpo2 : ((((List.range u2.length).zip s2).mergeSort
      (fun a b => a.2 ≤ b.2)).map (fun p => u2.getD p.1 [])).Perm u2 := by
    have h := List.Perm.map (fun p : Nat × Nat => u2.getD p.1 [])
      (List.mergeSort_perm ((List.range u2.length).zip s2)
        (fun a b => decide (a.2 ≤ b.2)))
    rwa [rank_map_zip u2 s2 hlen2] at h
  have hout := (hpo1.trans hperm).trans hpo2.symm
  haveI : IsAntisymm (List Nat) scoreOrder := ⟨by
    intro a b hab hba
    rcases hab with h | h
    · rcases hba with h' | h'
      · omega
      · exact h'.symm
    · exact h⟩
  exact List.eq_of_perm_of_sorted hout (rank_out_sorted u1 s1 hs1 hinj)
    (rank_out_sorted u2 s2 hs2 hinj2)

/-- C3 (amended): re-ranking a multiset of words is independent of input
order provided the uppercased words are pairwise distinguished by their
scores — when two distinct words tie, the stable sort keeps them in input
order and the outputs can differ (see the counterexample). -/
theorem c3_rank_perm_of_distinct_scores (ws1 ws2 : List (List Nat))
    (hperm : ws1.Perm ws2)
    (hinj : ∀ w1 ∈ ws1, ∀ w2 ∈ ws1,
      score_word (w1.map upperN) = score_word (w2.map upperN) →
      w1.map upperN = w2.map upperN) :
    Dictionary.make ws1 false = Dictionary.make ws2 false := by
  have hpermU : (ws1.map (List.map upperN)).Perm (ws2.map (List.map upperN)) :=
    hperm.map _
  have hinjU : ∀ a ∈ ws1.map (List.map upperN), ∀ b ∈ ws1.map (List.map upperN),
      score_word a = score_word b → a = b := by
    intro a ha b hb hsc
    obtain ⟨w1, hw1, rfl⟩ := List.mem_map.mp ha
    obtain ⟨w2, hw2, rfl⟩ := List.mem_map.mp hb
    exact hinj w1 hw1 w2 hw2 hsc
  simp only [Dictionary.make, Bool.false_eq_true, if_false, rank_wordlist]
  cases hs1 : scoresOf (ws1.map (List.map upperN)) with
  | none =>
    have hn2 : scoresOf (ws2.map (List.map upperN)) = none := by
      rw [scoresOf_eq_none_iff]
      obtain ⟨w, hw, hn⟩ := (scoresOf_eq_none_iff _).mp hs1
      exact ⟨w, hpermU.mem_iff.mp hw, hn⟩
    rw [hn2]
  | some s1 =>
    cases hs2 : scoresOf (ws2.map (List.map upperN)) with
    | none =>
      exfalso
      obtain ⟨w, hw, hn⟩ := (scoresOf_eq_none_iff _).mp hs2
      have hn1 : scoresOf (ws1.map (List.map upperN)) = none :=
        (scoresOf_eq_none_iff _).mpr ⟨w, hpermU.mem_iff.mpr hw, hn⟩
      rw [hs1] at hn1
      cases hn1
    | some s2 =>
      simp only []
      rw [rank_output_eq (ws1.map (List.map upperN)) (ws2.map (List.map upperN))
        s1 s2 hpermU hs1 hs2 hinjU]

/-- C3 witness: ["AB","XY"] and ["XY","AB"] are permutations with distinct
scores (4 and 12), so either input order ranks to the same sequence. -/
theorem c3_witness :
    Dictionary.make [strToWord "AB", strToWord "XY"] false =
      Dictionary.make [strToWord "XY", strToWord "AB"] false :=
  c3_rank_perm_of_distinct_scores _ _ (by decide) (by decide)
